import Mathlib

/-!
Verification of the convert-case library (`src/src/lib.rs`).

The repository's `lib.rs` orchestrates four submodules (`boundary`, `pattern`,
`case`, `words`) whose sources are not part of the repository snapshot; those
parts are modelled from the specification (sections 3, 4.1 to 4.4), constrained
by the repository's own test suite in `lib.rs`.  Strings are modelled as lists
of characters.

Character classification and case mapping are restricted to the ASCII range:
non-ASCII characters behave as caseless symbols.  This is an abstraction — the
spec (section 4.3) mandates full per-character case folding and the `lib.rs`
doctests exercise non-ASCII input — so universally quantified theorems below
are theorems of this ASCII alphabet abstraction, and each is stated only where
its truth does not depend on the behavior the abstraction omits (in
particular, no theorem below relies on the Capitalized pattern being an
involution-free per-character map, which full folding breaks on characters
with multi-character uppercase expansions).
-/

namespace ConvertCase

/-- Character-class test: uppercase letter, restricted to ASCII (the program
uses Unicode classification; see the file comment on the abstraction). -/
def isUpperC (c : Char) : Bool := 65 ≤ c.toNat && c.toNat ≤ 90

/-- Character-class test: lowercase letter, restricted to ASCII (the program
uses Unicode classification; see the file comment on the abstraction). -/
def isLowerC (c : Char) : Bool := 97 ≤ c.toNat && c.toNat ≤ 122

/-- Character-class test: ASCII digit. -/
def isDigitC (c : Char) : Bool := 48 ≤ c.toNat && c.toNat ≤ 57

/-- Case mapping to lowercase, restricted to ASCII (the program applies full
case folding; see the file comment on the abstraction). -/
def toLowerC (c : Char) : Char :=
  if isUpperC c then Char.ofNat (c.toNat + 32) else c

/-- Case mapping to uppercase, restricted to ASCII (the program applies full
case folding, under which a character may uppercase to several; see the file
comment on the abstraction). -/
def toUpperC (c : Char) : Char :=
  if isLowerC c then Char.ofNat (c.toNat - 32) else c

/-- Modelled from the spec: the Boundary catalog (section 3 and 4.1; the
missing `boundary` module).  The nine rules are exactly those listed in
`Converter::new` in `lib.rs`: three delimiter boundaries and six transition
boundaries including the acronym rule. -/
inductive Boundary
  | Underscore | Hyphen | Space
  | LowerUpper | UpperDigit | DigitUpper
  | DigitLower | LowerDigit | Acronyms
  deriving DecidableEq, Repr

/-- The default boundary set of `Converter::new`: the union of all standard
boundaries (`lib.rs` lines 208-212). -/
def defaultBoundaries : List Boundary :=
  [Boundary.Underscore, Boundary.Hyphen, Boundary.Space,
   Boundary.LowerUpper, Boundary.UpperDigit, Boundary.DigitUpper,
   Boundary.DigitLower, Boundary.LowerDigit, Boundary.Acronyms]

/-- Modelled from the spec: a delimiter boundary matches (and consumes) its
delimiter character (section 3: underscore, hyphen, space). -/
def isDelimB (bs : List Boundary) (c : Char) : Bool :=
  (bs.contains Boundary.Underscore && c == '_') ||
  (bs.contains Boundary.Hyphen && c == '-') ||
  (bs.contains Boundary.Space && c == ' ')

/-- Modelled from the spec: transition boundary predicate over the local
window, with `a` the previous character, `b` the current one, and `n` the
lookahead used by the acronym rule (section 3 and 4.1).  The acronym rule
breaks between the last uppercase letter of a run and a following
uppercase-then-lowercase pair, and takes priority (it is tested first). -/
def transB (bs : List Boundary) (a b : Char) (n : Option Char) : Bool :=
  (bs.contains Boundary.Acronyms && isUpperC a && isUpperC b &&
    (match n with | some x => isLowerC x | none => false)) ||
  (bs.contains Boundary.LowerUpper && isLowerC a && isUpperC b) ||
  (bs.contains Boundary.UpperDigit && isUpperC a && isDigitC b) ||
  (bs.contains Boundary.DigitUpper && isDigitC a && isUpperC b) ||
  (bs.contains Boundary.DigitLower && isDigitC a && isLowerC b) ||
  (bs.contains Boundary.LowerDigit && isLowerC a && isDigitC b)

/-- Modelled from the spec: the segmenter scan (section 4.2; the missing
`boundary::split`).  The buffer accumulates the current word in reverse; a
delimiter match closes the word and consumes the character, a transition match
closes the word and starts a new one with the current character, and empty
fragments are dropped. -/
def splitAux (bs : List Boundary) : List Char → List Char → List (List Char)
  | [], buf => if buf.isEmpty then [] else [buf.reverse]
  | c :: rest, buf =>
    if isDelimB bs c then
      (if buf.isEmpty then [] else [buf.reverse]) ++ splitAux bs rest []
    else
      match buf with
      | [] => splitAux bs rest [c]
      | p :: _ =>
        if transB bs p c rest.head? then
          buf.reverse :: splitAux bs rest [c]
        else
          splitAux bs rest (c :: buf)

/-- Modelled from the spec: `segment(text, boundary_set)` (section 4.2). -/
def split (bs : List Boundary) (s : List Char) : List (List Char) :=
  splitAux bs s []

/-- Modelled from the spec: the Pattern variants (section 3 and 4.3; the
missing `pattern` module).  The names follow the uses in `lib.rs`
(`Pattern::Lowercase`); the remaining variants are the spec's all-lowercase,
all-uppercase, Capitalized, camel, toggle, sentence and alternating. -/
inductive Pattern
  | Lowercase | Uppercase | Capital | Camel | Toggle | Sentence | Alternating
  deriving DecidableEq, Repr

/-- Render a word all lowercase. -/
def lowerW (w : List Char) : List Char := w.map toLowerC

/-- Render a word all uppercase. -/
def upperW (w : List Char) : List Char := w.map toUpperC

/-- Render a word Capitalized: first character uppercase, rest lowercase. -/
def capW : List Char → List Char
  | [] => []
  | c :: t => toUpperC c :: t.map toLowerC

/-- Modelled from the spec: the toggle word transform.  The repository test
`lossless_against_lossless` fixes its rendering of "my variable 22 name" as
"mY vARIABLE 22 nAME": every word gets its first letter lowercased and the
rest uppercased. -/
def toggleW : List Char → List Char
  | [] => []
  | c :: t => toLowerC c :: t.map toUpperC

/-- Modelled from the spec: the alternating pattern's character scan (section
4.3).  Alphabetic characters alternate lower/upper (starting lower, as fixed
by the repository test `alternating_ignore_symbols`); other characters pass
through without advancing the alternation state.  Returns the rendered word
and the state reached, so that the state threads across words. -/
def altChars : Bool → List Char → List Char × Bool
  | f, [] => ([], f)
  | f, c :: t =>
    if isUpperC c || isLowerC c then
      let r := altChars (!f) t
      ((if f then toUpperC c else toLowerC c) :: r.1, r.2)
    else
      let r := altChars f t
      (c :: r.1, r.2)

/-- Alternating rendering of a word sequence, threading the alternation state
across word boundaries (the spec: restarting per call, not per word). -/
def altWords : Bool → List (List Char) → List (List Char)
  | _, [] => []
  | f, w :: ws =>
    let r := altChars f w
    r.1 :: altWords r.2 ws

/-- Modelled from the spec: `mutate(words, pattern)` (section 4.3; the missing
`pattern` module's per-word capitalization policies). -/
def mutate (p : Pattern) (ws : List (List Char)) : List (List Char) :=
  match p with
  | Pattern.Lowercase => ws.map lowerW
  | Pattern.Uppercase => ws.map upperW
  | Pattern.Capital => ws.map capW
  | Pattern.Camel =>
    match ws with
    | [] => []
    | w :: t => lowerW w :: t.map capW
  | Pattern.Toggle => ws.map toggleW
  | Pattern.Sentence =>
    match ws with
    | [] => []
    | w :: t => capW w :: t.map lowerW
  | Pattern.Alternating => altWords false ws

/-- Join rendered words with the delimiter (section 4.3). -/
def joinW (d : List Char) : List (List Char) → List Char
  | [] => []
  | [w] => w
  | w :: ws => w ++ d ++ joinW d ws

/-- Modelled from the spec: the Case identifiers (section 3 and 4.4; the
missing `case` module).  The variants are exactly those used in `lib.rs`; the
randomized variants are feature-gated out of the core and therefore absent. -/
inductive Case
  | Lower | Upper | Title | Toggle | Camel | Pascal | UpperCamel
  | Snake | UpperSnake | Kebab | Cobol | Train | Flat | Alternating
  deriving DecidableEq, Repr

/-- Modelled from the spec: `pattern_for(case)` (section 4.4), as fixed by the
renderings in the repository test `lossless_against_lossless` and the case
detection test `detect_many_cases`. -/
def Case.pattern : Case → Pattern
  | Case.Lower => Pattern.Lowercase
  | Case.Upper => Pattern.Uppercase
  | Case.Title => Pattern.Capital
  | Case.Toggle => Pattern.Toggle
  | Case.Camel => Pattern.Camel
  | Case.Pascal => Pattern.Capital
  | Case.UpperCamel => Pattern.Capital
  | Case.Snake => Pattern.Lowercase
  | Case.UpperSnake => Pattern.Uppercase
  | Case.Kebab => Pattern.Lowercase
  | Case.Cobol => Pattern.Uppercase
  | Case.Train => Pattern.Capital
  | Case.Flat => Pattern.Lowercase
  | Case.Alternating => Pattern.Alternating

/-- Modelled from the spec: `delimiter_for(case)` (section 4.4), as fixed by
the renderings in the repository tests. -/
def Case.delim : Case → List Char
  | Case.Lower => [' ']
  | Case.Upper => [' ']
  | Case.Title => [' ']
  | Case.Toggle => [' ']
  | Case.Camel => []
  | Case.Pascal => []
  | Case.UpperCamel => []
  | Case.Snake => ['_']
  | Case.UpperSnake => ['_']
  | Case.Kebab => ['-']
  | Case.Cobol => ['-']
  | Case.Train => ['-']
  | Case.Flat => []
  | Case.Alternating => [' ']

/-- Modelled from the spec: `boundaries_for(case)` (section 3 and 4.4):
Snake is underscore-bounded, Kebab hyphen-bounded, the space-delimited cases
space-bounded, the camel family carries all transition boundaries plus the
delimiters (the spec's words for Camel), and Flat, being delimiterless,
recovers no boundaries. -/
def Case.boundaries : Case → List Boundary
  | Case.Lower => [Boundary.Space]
  | Case.Upper => [Boundary.Space]
  | Case.Title => [Boundary.Space]
  | Case.Toggle => [Boundary.Space]
  | Case.Camel => defaultBoundaries
  | Case.Pascal => defaultBoundaries
  | Case.UpperCamel => defaultBoundaries
  | Case.Snake => [Boundary.Underscore]
  | Case.UpperSnake => [Boundary.Underscore]
  | Case.Kebab => [Boundary.Hyphen]
  | Case.Cobol => [Boundary.Hyphen]
  | Case.Train => [Boundary.Hyphen]
  | Case.Flat => []
  | Case.Alternating => [Boundary.Space]

/-- Modelled from the spec: `deterministic_cases()` (section 4.4) — every
core case, since the non-deterministic randomized variants are excluded from
the core. -/
def Case.deterministic_cases : List Case :=
  [Case.Lower, Case.Upper, Case.Title, Case.Toggle, Case.Camel, Case.Pascal,
   Case.UpperCamel, Case.Snake, Case.UpperSnake, Case.Kebab, Case.Cobol,
   Case.Train, Case.Flat, Case.Alternating]

/-- The `Converter` struct of `lib.rs` (lines 198-203). -/
structure Converter where
  s : List Char
  boundaries : List Boundary
  pattern : Pattern
  delim : List Char
  deriving DecidableEq, Repr

/-- `Converter::new` (`lib.rs` lines 206-220): default boundaries, empty
delimiter, `Pattern::Lowercase`. -/
def Converter.new (s : List Char) : Converter :=
  { s := s, boundaries := defaultBoundaries,
    delim := [], pattern := Pattern.Lowercase }

/-- `Converter::new_from_case` (`lib.rs` lines 222-229). -/
def Converter.new_from_case (s : List Char) (c : Case) : Converter :=
  { s := s, boundaries := c.boundaries,
    delim := [], pattern := Pattern.Lowercase }

/-- `Converter::convert` (`lib.rs` lines 231-234). -/
def Converter.convert (cv : Converter) : List Char :=
  joinW cv.delim (mutate cv.pattern (split cv.boundaries cv.s))

/-- `Converter::to_case` (`lib.rs` lines 236-240). -/
def Converter.to_case (cv : Converter) (c : Case) : List Char :=
  Converter.convert { cv with pattern := c.pattern, delim := c.delim }

/-- `Converter::from_case` (`lib.rs` lines 242-244), the mutating method, as
a state transformer. -/
def Converter.from_case (cv : Converter) (c : Case) : Converter :=
  { cv with boundaries := c.boundaries }

/-- `Converter::is_case` (`lib.rs` lines 246-248). -/
def Converter.is_case (cv : Converter) (c : Case) : Bool :=
  Converter.to_case (Converter.new cv.s) c == cv.s

/-- `Casing::to_case` for `str` and `String` (`lib.rs` lines 161-163 and
175-177). -/
def to_case (s : List Char) (c : Case) : List Char :=
  (Converter.new s).to_case c

/-- `Casing::from_case` for `str` and `String` (`lib.rs` lines 165-167 and
179-181). -/
def from_case (s : List Char) (c : Case) : Converter :=
  Converter.new_from_case s c

/-- `Casing::is_case` for `str` and `String` (`lib.rs` lines 169-171 and
183-185). -/
def is_case (s : List Char) (c : Case) : Bool :=
  to_case s c == s

/-- `possible_cases` (`lib.rs` lines 120-125). -/
def possible_cases (s : List Char) : List Case :=
  Case.deterministic_cases.filter (fun c => (from_case s c).to_case c == s)

/-- The lookahead-free part of the transition predicate: the five pair rules
of the default boundary set. -/
def pairT (a b : Char) : Bool :=
  (isLowerC a && isUpperC b) || (isUpperC a && isDigitC b) ||
  (isDigitC a && isUpperC b) || (isDigitC a && isLowerC b) ||
  (isLowerC a && isDigitC b)

/-- No pair rule fires between two adjacent characters. -/
def PairOK (a b : Char) : Prop := pairT a b = false

/-- Whether an optional lookahead character is a lowercase letter. -/
def laLower : Option Char → Bool
  | none => false
  | some c => isLowerC c

/-- The lookahead seen at the head of `t`, falling back to `la` when `t` is
exhausted. -/
def lhead : List Char → Option Char → Option Char
  | [], la => la
  | x :: _, _ => some x

/-- Chain safety: walking the characters of `t` after previous character `p`,
with final lookahead `la`, no transition boundary of the default set fires. -/
def chainSafe : Char → List Char → Option Char → Prop
  | _, [], _ => True
  | p, c :: t, la =>
    transB defaultBoundaries p c (lhead t la) = false ∧ chainSafe c t la

/-- Chain safety of a whole word. -/
def chainSafeW : List Char → Option Char → Prop
  | [], _ => True
  | h :: t, la => chainSafe h t la

/-- A word of the segmenter's output: nonempty, free of delimiter characters,
and with no pair rule firing between adjacent characters. -/
def WordOK (w : List Char) : Prop :=
  w ≠ [] ∧ (∀ c ∈ w, isDelimB defaultBoundaries c = false) ∧
    List.Chain' PairOK w

/-- A rendered word that no default-boundary split can cut, whatever
non-lowercase lookahead follows it. -/
def SafeW (w : List Char) : Prop :=
  w ≠ [] ∧ (∀ c ∈ w, isDelimB defaultBoundaries c = false) ∧
    ∀ la : Option Char, laLower la = false → chainSafeW w la

/-- Conversion with the default boundary set, a pattern and a delimiter: the
body shared by `Converter::convert` whenever the converter was built by
`Converter::new`. -/
def cconv (p : Pattern) (d : List Char) (s : List Char) : List Char :=
  joinW d (mutate p (split defaultBoundaries s))

/-- Claim C1, counterexample: a default-constructed `Converter` on the string
"A" returns "a" from `convert()`, not the input unchanged — `Converter::new`
stages `Pattern::Lowercase` and the empty delimiter, not an identity. -/
theorem convert_default_not_identity :
    ¬ ((Converter.new ['A']).convert = ['A']) := by decide

/-- Claim C1, amended: `convert()` invoked without `to_case` is not the
identity; it splits on the staged boundaries, lowercases every word and joins
with the empty delimiter.  For a default-constructed `Converter` this
coincides with conversion to the Flat case, and for `from_case` construction
it is the lowercase-and-concatenate rendering of the words split by that
case's boundaries. -/
theorem convert_default_is_flat (s : List Char) (c : Case) :
    (Converter.new s).convert = to_case s Case.Flat ∧
      (Converter.new_from_case s c).convert =
        joinW [] (mutate Pattern.Lowercase (split c.boundaries s)) :=
  ⟨rfl, rfl⟩

/-- Claim C2: `is_case(text, case)` holds exactly when converting `text` to
`case` (under the default boundary set) reproduces `text` unchanged. -/
theorem is_case_iff_to_case_fixed (s : List Char) (c : Case) :
    is_case s c = true ↔ to_case s c = s := by
  simp [is_case]

/-- Claim C3: `to_case` converts with the default boundary set — the union of
the nine standard boundaries — together with the case's own pattern and
delimiter, computed as join(mutate(segment(text, boundaries), pattern),
delimiter). -/
theorem to_case_eq_convert_default (s : List Char) (c : Case) :
    to_case s c = joinW c.delim (mutate c.pattern (split defaultBoundaries s)) ∧
      defaultBoundaries =
        [Boundary.Underscore, Boundary.Hyphen, Boundary.Space,
         Boundary.LowerUpper, Boundary.UpperDigit, Boundary.DigitUpper,
         Boundary.DigitLower, Boundary.LowerDigit, Boundary.Acronyms] :=
  ⟨rfl, rfl⟩

/-- Claim C4: `from_case(text, case)` stages exactly the case's own boundary
set, so a subsequent `to_case` segments the text with only those boundaries. -/
theorem from_case_stages_case_boundaries (s : List Char) (c : Case) :
    (from_case s c).boundaries = c.boundaries ∧
      ∀ c2 : Case, (from_case s c).to_case c2 =
        joinW c2.delim (mutate c2.pattern (split c.boundaries s)) :=
  ⟨rfl, fun _ => rfl⟩

/-- Claim C6: the possible cases of "asdf" are exactly lowercase, camel,
snake, kebab and flat. -/
theorem possible_cases_asdf :
    possible_cases ['a', 's', 'd', 'f'] =
      [Case.Lower, Case.Camel, Case.Snake, Case.Kebab, Case.Flat] := by
  decide

/-- Claim C7: "XMLHttpRequest" segments as ["XML", "Http", "Request"] — the
acronym boundary groups the uppercase run — and renders in snake case as
"xml_http_request", under the default boundary set and equally when parsed
`from_case` any of the camel-family cases. -/
theorem acronym_xml_http_request :
    split defaultBoundaries
        ['X', 'M', 'L', 'H', 't', 't', 'p', 'R', 'e', 'q', 'u', 'e', 's', 't'] =
      [['X', 'M', 'L'], ['H', 't', 't', 'p'],
       ['R', 'e', 'q', 'u', 'e', 's', 't']] ∧
    split Case.Camel.boundaries
        ['X', 'M', 'L', 'H', 't', 't', 'p', 'R', 'e', 'q', 'u', 'e', 's', 't'] =
      [['X', 'M', 'L'], ['H', 't', 't', 'p'],
       ['R', 'e', 'q', 'u', 'e', 's', 't']] ∧
    to_case ['X', 'M', 'L', 'H', 't', 't', 'p', 'R', 'e', 'q', 'u', 'e', 's', 't']
        Case.Snake =
      ['x', 'm', 'l', '_', 'h', 't', 't', 'p', '_',
       'r', 'e', 'q', 'u', 'e', 's', 't'] ∧
    (from_case
        ['X', 'M', 'L', 'H', 't', 't', 'p', 'R', 'e', 'q', 'u', 'e', 's', 't']
        Case.Camel).to_case Case.Snake =
      ['x', 'm', 'l', '_', 'h', 't', 't', 'p', '_',
       'r', 'e', 'q', 'u', 'e', 's', 't'] ∧
    (from_case
        ['X', 'M', 'L', 'H', 't', 't', 'p', 'R', 'e', 'q', 'u', 'e', 's', 't']
        Case.Pascal).to_case Case.Snake =
      ['x', 'm', 'l', '_', 'h', 't', 't', 'p', '_',
       'r', 'e', 'q', 'u', 'e', 's', 't'] ∧
    (from_case
        ['X', 'M', 'L', 'H', 't', 't', 'p', 'R', 'e', 'q', 'u', 'e', 's', 't']
        Case.UpperCamel).to_case Case.Snake =
      ['x', 'm', 'l', '_', 'h', 't', 't', 'p', '_',
       'r', 'e', 'q', 'u', 'e', 's', 't'] := by
  decide

/-- Claim C8: converting the empty string returns the empty string, for every
boundary set, pattern and delimiter, and hence for every case pair used via
`from_case`/`to_case`. -/
theorem convert_empty (bs : List Boundary) (p : Pattern) (d : List Char) :
    (Converter.mk [] bs p d).convert = [] ∧
      ∀ c1 c2 : Case, (from_case [] c1).to_case c2 = [] := by
  refine ⟨?_, fun c1 c2 => ?_⟩
  · show joinW d (mutate p (split bs [])) = []
    have h : split bs [] = [] := rfl
    rw [h]
    cases p <;> rfl
  · cases c2 <;> rfl

/-- Claim C9: `Converter::is_case` ignores the staged boundary set (and the
whole staged configuration): for every converter state it re-parses the stored
string with a freshly constructed default `Converter`, so it agrees with
`Casing::is_case` on the stored string; in particular `from_case` staging does
not affect it. -/
theorem converter_is_case_ignores_boundaries (cv : Converter) (c2 : Case) :
    cv.is_case c2 = is_case cv.s c2 ∧
      ∀ (s : List Char) (c : Case), (from_case s c).is_case c2 = is_case s c2 :=
  ⟨rfl, fun _ _ => rfl⟩

/-- Claim C10: the mutating `Converter::from_case` updates only the
`boundaries` field — the stored string, pattern and delimiter are unchanged,
and the boundaries become exactly the case's own. -/
theorem converter_from_case_frame (cv : Converter) (c : Case) :
    (cv.from_case c).s = cv.s ∧
      (cv.from_case c).pattern = cv.pattern ∧
      (cv.from_case c).delim = cv.delim ∧
      (cv.from_case c).boundaries = c.boundaries :=
  ⟨rfl, rfl, rfl, rfl⟩

end ConvertCase

namespace ConvertCase

theorem toNat_ofNat_lt (n : Nat) (h : n < 55296) : (Char.ofNat n).toNat = n := by
  have hv : n.isValidChar := Or.inl h
  rw [Char.ofNat, dif_pos hv]
  simp [Char.ofNatAux, Char.toNat, UInt32.toNat]

theorem char_eq_of_toNat {a b : Char} (h : a.toNat = b.toNat) : a = b := by
  apply Char.eq_of_val_eq
  apply UInt32.eq_of_toBitVec_eq
  exact BitVec.toNat_injective h

theorem toLowerC_of_not_upper {c : Char} (h : isUpperC c = false) : toLowerC c = c := by
  simp [toLowerC, h]

theorem toUpperC_of_not_lower {c : Char} (h : isLowerC c = false) : toUpperC c = c := by
  simp [toUpperC, h]

theorem upper_bounds {c : Char} (h : isUpperC c = true) : 65 ≤ c.toNat ∧ c.toNat ≤ 90 := by
  simpa [isUpperC] using h

theorem lower_bounds {c : Char} (h : isLowerC c = true) : 97 ≤ c.toNat ∧ c.toNat ≤ 122 := by
  simpa [isLowerC] using h

theorem toNat_toLowerC_of_upper {c : Char} (h : isUpperC c = true) :
    (toLowerC c).toNat = c.toNat + 32 := by
  have hb := upper_bounds h
  rw [toLowerC, if_pos h]
  exact toNat_ofNat_lt _ (by omega)

theorem toNat_toUpperC_of_lower {c : Char} (h : isLowerC c = true) :
    (toUpperC c).toNat = c.toNat - 32 := by
  have hb := lower_bounds h
  rw [toUpperC, if_pos h]
  exact toNat_ofNat_lt _ (by omega)

theorem isUpperC_toLowerC (c : Char) : isUpperC (toLowerC c) = false := by
  by_cases h : isUpperC c
  · have hb := upper_bounds h
    have ht := toNat_toLowerC_of_upper h
    simp only [isUpperC, ht, Bool.and_eq_false_iff, decide_eq_false_iff_not]
    omega
  · rw [toLowerC_of_not_upper (by simpa using h)]
    simpa using h

theorem isLowerC_toLowerC (c : Char) : isLowerC (toLowerC c) = (isLowerC c || isUpperC c) := by
  by_cases h : isUpperC c
  · have hb := upper_bounds h
    have ht := toNat_toLowerC_of_upper h
    rw [h, Bool.or_true]
    simp only [isLowerC, ht, Bool.and_eq_true, decide_eq_true_eq]
    omega
  · rw [toLowerC_of_not_upper (by simpa using h)]
    simp only [Bool.not_eq_true] at h
    rw [h, Bool.or_false]

theorem isDigitC_toLowerC (c : Char) : isDigitC (toLowerC c) = isDigitC c := by
  by_cases h : isUpperC c
  · have hb := upper_bounds h
    have ht := toNat_toLowerC_of_upper h
    simp only [isDigitC, ht]
    have h1 : decide (48 ≤ c.toNat + 32) = true := by simp; omega
    have h2 : decide (c.toNat + 32 ≤ 57) = false := by simp; omega
    have h3 : decide (c.toNat ≤ 57) = false := by simp; omega
    rw [h2, h3, Bool.and_false, Bool.and_false]
  · rw [toLowerC_of_not_upper (by simpa using h)]

theorem isLowerC_toUpperC (c : Char) : isLowerC (toUpperC c) = false := by
  by_cases h : isLowerC c
  · have hb := lower_bounds h
    have ht := toNat_toUpperC_of_lower h
    simp only [isLowerC, ht, Bool.and_eq_false_iff, decide_eq_false_iff_not]
    omega
  · rw [toUpperC_of_not_lower (by simpa using h)]
    simpa using h

theorem isUpperC_toUpperC (c : Char) : isUpperC (toUpperC c) = (isUpperC c || isLowerC c) := by
  by_cases h : isLowerC c
  · have hb := lower_bounds h
    have ht := toNat_toUpperC_of_lower h
    rw [h, Bool.or_true]
    simp only [isUpperC, ht, Bool.and_eq_true, decide_eq_true_eq]
    omega
  · rw [toUpperC_of_not_lower (by simpa using h)]
    simp only [Bool.not_eq_true] at h
    rw [h, Bool.or_false]

theorem isDigitC_toUpperC (c : Char) : isDigitC (toUpperC c) = isDigitC c := by
  by_cases h : isLowerC c
  · have hb := lower_bounds h
    have ht := toNat_toUpperC_of_lower h
    simp only [isDigitC, ht]
    have h2 : decide (c.toNat - 32 ≤ 57) = false := by simp; omega
    have h3 : decide (c.toNat ≤ 57) = false := by simp; omega
    rw [h2, h3, Bool.and_false, Bool.and_false]
  · rw [toUpperC_of_not_lower (by simpa using h)]

theorem toLowerC_idem (c : Char) : toLowerC (toLowerC c) = toLowerC c :=
  toLowerC_of_not_upper (isUpperC_toLowerC c)

theorem toUpperC_idem (c : Char) : toUpperC (toUpperC c) = toUpperC c :=
  toUpperC_of_not_lower (isLowerC_toUpperC c)

end ConvertCase

namespace ConvertCase

theorem isDelimB_default (c : Char) :
    isDelimB defaultBoundaries c = (c == '_' || c == '-' || c == ' ') := rfl

theorem transB_default (a b : Char) (n : Option Char) :
    transB defaultBoundaries a b n =
      ((isUpperC a && isUpperC b && laLower n) || pairT a b) := by
  cases n <;> simp [transB, pairT, laLower, defaultBoundaries, Bool.or_assoc, Bool.and_assoc]

theorem toNat_delim_chars : ('_').toNat = 95 ∧ ('-').toNat = 45 ∧ (' ').toNat = 32 := by
  decide

theorem isDelimB_eq_false_of_toNat {c : Char}
    (h : c.toNat ≠ 95 ∧ c.toNat ≠ 45 ∧ c.toNat ≠ 32) :
    isDelimB defaultBoundaries c = false := by
  rw [isDelimB_default]
  have h1 : (c == '_') = false := by
    simp only [beq_eq_false_iff_ne, ne_eq]
    intro he
    exact h.1 (by rw [he]; rfl)
  have h2 : (c == '-') = false := by
    simp only [beq_eq_false_iff_ne, ne_eq]
    intro he
    exact h.2.1 (by rw [he]; rfl)
  have h3 : (c == ' ') = false := by
    simp only [beq_eq_false_iff_ne, ne_eq]
    intro he
    exact h.2.2 (by rw [he]; rfl)
  rw [h1, h2, h3]
  rfl

theorem isDelimB_toLowerC {c : Char} (h : isDelimB defaultBoundaries c = false) :
    isDelimB defaultBoundaries (toLowerC c) = false := by
  by_cases hu : isUpperC c
  · have hb := upper_bounds hu
    have ht := toNat_toLowerC_of_upper hu
    exact isDelimB_eq_false_of_toNat (by omega)
  · rwa [toLowerC_of_not_upper (by simpa using hu)]

theorem isDelimB_toUpperC {c : Char} (h : isDelimB defaultBoundaries c = false) :
    isDelimB defaultBoundaries (toUpperC c) = false := by
  by_cases hl : isLowerC c
  · have hb := lower_bounds hl
    have ht := toNat_toUpperC_of_lower hl
    exact isDelimB_eq_false_of_toNat (by omega)
  · rwa [toUpperC_of_not_lower (by simpa using hl)]

theorem transB_of_pairT_false_lower_lower {a b : Char} (n : Option Char)
    (h : pairT a b = false) :
    transB defaultBoundaries (toLowerC a) (toLowerC b) n = false := by
  rw [transB_default]
  simp only [pairT, Bool.or_eq_false_iff, Bool.and_eq_false_iff] at h
  simp only [pairT, isUpperC_toLowerC, isLowerC_toLowerC, isDigitC_toLowerC,
    Bool.or_eq_false_iff, Bool.and_eq_false_iff, Bool.and_eq_false_iff,
    Bool.false_eq_true, Bool.or_eq_false_iff]
  tauto

theorem transB_of_pairT_false_upper_upper {a b : Char} (n : Option Char)
    (hn : laLower n = false) (h : pairT a b = false) :
    transB defaultBoundaries (toUpperC a) (toUpperC b) n = false := by
  rw [transB_default]
  simp only [pairT, Bool.or_eq_false_iff, Bool.and_eq_false_iff] at h
  simp only [pairT, isLowerC_toUpperC, isUpperC_toUpperC, isDigitC_toUpperC, hn,
    Bool.or_eq_false_iff, Bool.and_eq_false_iff, Bool.and_false,
    Bool.false_eq_true, Bool.or_eq_false_iff]
  tauto

end ConvertCase

namespace ConvertCase

theorem pairT_of_transB_false {p c : Char} {n : Option Char}
    (h : transB defaultBoundaries p c n = false) : pairT p c = false := by
  rw [transB_default] at h
  exact (Bool.or_eq_false_iff.mp h).2

theorem splitAux_words_ok :
    ∀ (t buf : List Char),
      (∀ c ∈ buf, isDelimB defaultBoundaries c = false) →
      List.Chain' (flip PairOK) buf →
      ∀ w ∈ splitAux defaultBoundaries t buf, WordOK w := by
  intro t
  induction t with
  | nil =>
    intro buf hd hc w hw
    simp only [splitAux] at hw
    by_cases hb : buf.isEmpty
    · rw [if_pos hb] at hw
      simp at hw
    · rw [if_neg hb] at hw
      simp only [List.mem_singleton] at hw
      subst hw
      refine ⟨?_, ?_, ?_⟩
      · simp only [ne_eq, List.reverse_eq_nil_iff]
        intro he
        rw [he] at hb
        exact hb rfl
      · intro c hcw
        exact hd c (List.mem_reverse.mp hcw)
      · exact List.chain'_reverse.mpr hc
  | cons c t ih =>
    intro buf hd hc w hw
    cases buf with
    | nil =>
      simp only [splitAux] at hw
      by_cases hdel : isDelimB defaultBoundaries c = true
      · rw [if_pos hdel] at hw
        have hflush :
            (if ([] : List Char).isEmpty = true then ([] : List (List Char))
              else [([] : List Char).reverse]) = [] := rfl
        rw [hflush, List.nil_append] at hw
        exact ih [] (by simp) (by simp) w hw
      · rw [if_neg hdel] at hw
        have hdel' : isDelimB defaultBoundaries c = false := by
          simpa using hdel
        exact ih [c] (by simpa using hdel') (by simp) w hw
    | cons p b =>
      simp only [splitAux] at hw
      by_cases hdel : isDelimB defaultBoundaries c = true
      · rw [if_pos hdel] at hw
        have hflush :
            (if (p :: b).isEmpty = true then ([] : List (List Char))
              else [(p :: b).reverse]) = [(p :: b).reverse] := rfl
        rw [hflush] at hw
        rcases List.mem_append.mp hw with h1 | h2
        · simp only [List.mem_singleton] at h1
          subst h1
          refine ⟨by simp, ?_, List.chain'_reverse.mpr hc⟩
          intro x hxw
          exact hd x (List.mem_reverse.mp hxw)
        · exact ih [] (by simp) (by simp) w h2
      · rw [if_neg hdel] at hw
        have hdel' : isDelimB defaultBoundaries c = false := by
          simpa using hdel
        by_cases htr : transB defaultBoundaries p c t.head? = true
        · rw [if_pos htr] at hw
          rcases List.mem_cons.mp hw with h1 | h2
          · subst h1
            refine ⟨by simp, ?_, List.chain'_reverse.mpr hc⟩
            intro x hxw
            exact hd x (List.mem_reverse.mp hxw)
          · exact ih [c] (by simpa using hdel') (by simp) w h2
        · rw [if_neg htr] at hw
          have htr' : transB defaultBoundaries p c t.head? = false := by
            simpa using htr
          refine ih (c :: p :: b) ?_ ?_ w hw
          · intro x hx
            rcases List.mem_cons.mp hx with h1 | h2
            · subst h1; exact hdel'
            · exact hd x h2
          · exact List.chain'_cons.mpr ⟨pairT_of_transB_false htr', hc⟩

theorem split_words_ok (s : List Char) :
    ∀ w ∈ split defaultBoundaries s, WordOK w :=
  splitAux_words_ok s [] (by simp) (by simp)

theorem lhead_append (t rest : List Char) (d : Char) :
    lhead t ((d :: rest).head?) = (t ++ d :: rest).head? := by
  cases t <;> rfl

theorem lhead_none (t : List Char) :
    lhead t (([] : List Char).head?) = (t ++ []).head? := by
  cases t <;> rfl

theorem splitAux_consume :
    ∀ (t : List Char) (p : Char) (b rest : List Char),
      (∀ c ∈ t, isDelimB defaultBoundaries c = false) →
      chainSafe p t rest.head? →
      splitAux defaultBoundaries (t ++ rest) (p :: b) =
        splitAux defaultBoundaries rest (t.reverse ++ (p :: b)) := by
  intro t
  induction t with
  | nil => intro p b rest _ _; rfl
  | cons c t ih =>
    intro p b rest hnd hcs
    have hc : isDelimB defaultBoundaries c = false := hnd c (by simp)
    obtain ⟨h1, h2⟩ := hcs
    have hla : lhead t rest.head? = (t ++ rest).head? := by
      cases rest with
      | nil => exact lhead_none t
      | cons d rest => exact lhead_append t rest d
    have h1' : transB defaultBoundaries p c ((t ++ rest).head?) = false := by
      rw [← hla]; exact h1
    show splitAux defaultBoundaries (c :: (t ++ rest)) (p :: b) = _
    simp only [splitAux, hc, Bool.false_eq_true, if_false, h1', if_false]
    rw [ih c (p :: b) rest (fun x hx => hnd x (by simp [hx])) h2]
    simp

theorem splitAux_word (w rest : List Char) (hw : w ≠ [])
    (hnd : ∀ c ∈ w, isDelimB defaultBoundaries c = false)
    (hcs : chainSafeW w rest.head?) :
    splitAux defaultBoundaries (w ++ rest) [] =
      splitAux defaultBoundaries rest w.reverse := by
  match w, hw with
  | h :: t, _ =>
    have hh : isDelimB defaultBoundaries h = false := hnd h (by simp)
    show splitAux defaultBoundaries (h :: (t ++ rest)) [] = _
    simp only [splitAux, hh, Bool.false_eq_true, if_false]
    rw [splitAux_consume t h [] rest (fun x hx => hnd x (by simp [hx])) hcs]
    simp

end ConvertCase

namespace ConvertCase

theorem joinW_nil_cons (w : List Char) (l : List (List Char)) :
    joinW [] (w :: l) = w ++ joinW [] l := by
  cases l with
  | nil => simp [joinW]
  | cons x xs => simp [joinW]

theorem joinW_cons_cons (d : List Char) (w x : List Char) (l : List (List Char)) :
    joinW d (w :: x :: l) = w ++ d ++ joinW d (x :: l) := rfl

theorem split_join (dc : Char)
    (hdd : isDelimB defaultBoundaries dc = true) (hdl : isLowerC dc = false) :
    ∀ ws : List (List Char), (∀ w ∈ ws, SafeW w) →
      split defaultBoundaries (joinW [dc] ws) = ws := by
  intro ws
  induction ws with
  | nil => intro _; rfl
  | cons w ws ih =>
    intro h
    obtain ⟨hne, hnd, hcs⟩ := h w (by simp)
    cases ws with
    | nil =>
      show splitAux defaultBoundaries (joinW [dc] [w]) [] = [w]
      have hj : joinW [dc] [w] = w ++ [] := by simp [joinW]
      rw [hj, splitAux_word w [] hne hnd (hcs none rfl)]
      have hrne : w.reverse.isEmpty = false := by
        cases w with
        | nil => exact absurd rfl hne
        | cons a t => simp
      show (if w.reverse.isEmpty = true then [] else [w.reverse.reverse]) = [w]
      rw [hrne]
      simp
    | cons x xs =>
      have hj : joinW [dc] (w :: x :: xs) = w ++ (dc :: joinW [dc] (x :: xs)) := by
        rw [joinW_cons_cons]
        simp
      show splitAux defaultBoundaries (joinW [dc] (w :: x :: xs)) [] = w :: x :: xs
      rw [hj, splitAux_word w (dc :: joinW [dc] (x :: xs)) hne hnd
        (by exact hcs (some dc) (by simpa [laLower] using hdl))]
      show (if isDelimB defaultBoundaries dc = true then
          (if w.reverse.isEmpty = true then [] else [w.reverse.reverse]) ++
            splitAux defaultBoundaries (joinW [dc] (x :: xs)) []
        else _) = w :: x :: xs
      rw [if_pos hdd]
      have hrne : w.reverse.isEmpty = false := by
        cases w with
        | nil => exact absurd rfl hne
        | cons a t => simp
      rw [hrne]
      have ih' := ih (fun v hv => h v (by simp [hv]))
      show [w.reverse.reverse] ++ splitAux defaultBoundaries (joinW [dc] (x :: xs)) [] = w :: x :: xs
      rw [List.reverse_reverse, List.singleton_append]
      exact congrArg (w :: ·) ih'

theorem splitAux_chars {P : Char → Prop} :
    ∀ (t buf : List Char) (bs : List Boundary),
      (∀ c ∈ buf, P c) → (∀ c ∈ t, P c) →
      ∀ w ∈ splitAux bs t buf, ∀ c ∈ w, P c := by
  intro t
  induction t with
  | nil =>
    intro buf bs hb ht w hw c hc
    simp only [splitAux] at hw
    by_cases he : buf.isEmpty = true
    · rw [if_pos he] at hw
      simp at hw
    · rw [if_neg he] at hw
      simp only [List.mem_singleton] at hw
      subst hw
      exact hb c (List.mem_reverse.mp hc)
  | cons a t ih =>
    intro buf bs hb ht w hw c hc
    simp only [splitAux] at hw
    have ha : P a := ht a (by simp)
    have ht' : ∀ x ∈ t, P x := fun x hx => ht x (by simp [hx])
    by_cases hdel : isDelimB bs a = true
    · rw [if_pos hdel] at hw
      rcases List.mem_append.mp hw with h1 | h2
      · by_cases he : buf.isEmpty = true
        · rw [if_pos he] at h1
          simp at h1
        · rw [if_neg he] at h1
          simp only [List.mem_singleton] at h1
          subst h1
          exact hb c (List.mem_reverse.mp hc)
      · exact ih [] bs (by simp) ht' w h2 c hc
    · rw [if_neg hdel] at hw
      cases buf with
      | nil =>
        exact ih [a] bs (by simpa using ha) ht' w hw c hc
      | cons p b =>
        replace hw : w ∈ (if transB bs p a t.head? = true then
            (p :: b).reverse :: splitAux bs t [a]
          else splitAux bs t (a :: p :: b)) := hw
        by_cases htr : transB bs p a t.head? = true
        · rw [if_pos htr] at hw
          rcases List.mem_cons.mp hw with h1 | h2
          · subst h1
            exact hb c (List.mem_reverse.mp hc)
          · exact ih [a] bs (by simpa using ha) ht' w h2 c hc
        · rw [if_neg htr] at hw
          refine ih (a :: p :: b) bs ?_ ht' w hw c hc
          intro x hx
          rcases List.mem_cons.mp hx with h1 | h2
          · subst h1; exact ha
          · exact hb x h2

theorem splitAux_concat :
    ∀ (t buf : List Char),
      (∀ c ∈ t, isDelimB defaultBoundaries c = false) →
      joinW [] (splitAux defaultBoundaries t buf) = buf.reverse ++ t := by
  intro t
  induction t with
  | nil =>
    intro buf _
    simp only [splitAux]
    by_cases he : buf.isEmpty = true
    · rw [if_pos he]
      have : buf = [] := by
        cases buf with
        | nil => rfl
        | cons a b => simp at he
      subst this
      rfl
    · rw [if_neg he]
      show joinW [] [buf.reverse] = buf.reverse ++ []
      simp [joinW]
  | cons a t ih =>
    intro buf hnd
    have ha : isDelimB defaultBoundaries a = false := hnd a (by simp)
    have ht' : ∀ x ∈ t, isDelimB defaultBoundaries x = false :=
      fun x hx => hnd x (by simp [hx])
    simp only [splitAux, ha, Bool.false_eq_true, if_false]
    cases buf with
    | nil =>
      rw [ih [a] ht']
      simp
    | cons p b =>
      show joinW [] (if transB defaultBoundaries p a t.head? = true then
          (p :: b).reverse :: splitAux defaultBoundaries t [a]
        else splitAux defaultBoundaries t (a :: p :: b)) = (p :: b).reverse ++ a :: t
      by_cases htr : transB defaultBoundaries p a t.head? = true
      · rw [if_pos htr, joinW_nil_cons, ih [a] ht']
        simp
      · rw [if_neg htr, ih (a :: p :: b) ht']
        simp

theorem joinW_mem {c : Char} :
    ∀ l : List (List Char), c ∈ joinW [] l → ∃ w ∈ l, c ∈ w := by
  intro l
  induction l with
  | nil => intro h; simp [joinW] at h
  | cons w ws ih =>
    intro h
    rw [joinW_nil_cons] at h
    rcases List.mem_append.mp h with h1 | h2
    · exact ⟨w, by simp, h1⟩
    · obtain ⟨v, hv, hc⟩ := ih h2
      exact ⟨v, by simp [hv], hc⟩

end ConvertCase

namespace ConvertCase

theorem chainSafe_lower :
    ∀ (t : List Char) (a : Char) (la : Option Char),
      List.Chain' PairOK (a :: t) →
      chainSafe (toLowerC a) (t.map toLowerC) la := by
  intro t
  induction t with
  | nil => intro a la _; trivial
  | cons b t ih =>
    intro a la hch
    obtain ⟨hab, hch'⟩ := List.chain'_cons.mp hch
    exact ⟨transB_of_pairT_false_lower_lower _ hab, ih b la hch'⟩

theorem laLower_lhead_map_upper (t : List Char) (la : Option Char)
    (hla : laLower la = false) :
    laLower (lhead (t.map toUpperC) la) = false := by
  cases t with
  | nil => exact hla
  | cons c t => simpa [lhead, laLower] using isLowerC_toUpperC c

theorem chainSafe_upper :
    ∀ (t : List Char) (a : Char) (la : Option Char),
      laLower la = false →
      List.Chain' PairOK (a :: t) →
      chainSafe (toUpperC a) (t.map toUpperC) la := by
  intro t
  induction t with
  | nil => intro a la _ _; trivial
  | cons b t ih =>
    intro a la hla hch
    obtain ⟨hab, hch'⟩ := List.chain'_cons.mp hch
    exact ⟨transB_of_pairT_false_upper_upper _
      (laLower_lhead_map_upper t la hla) hab, ih b la hla hch'⟩

theorem safeW_lowerW {w : List Char} (hw : WordOK w) : SafeW (lowerW w) := by
  obtain ⟨hne, hnd, hch⟩ := hw
  refine ⟨?_, ?_, ?_⟩
  · simpa [lowerW] using hne
  · intro c hc
    simp only [lowerW, List.mem_map] at hc
    obtain ⟨x, hx, rfl⟩ := hc
    exact isDelimB_toLowerC (hnd x hx)
  · intro la _
    cases w with
    | nil => trivial
    | cons a t => exact chainSafe_lower t a la hch

theorem safeW_upperW {w : List Char} (hw : WordOK w) : SafeW (upperW w) := by
  obtain ⟨hne, hnd, hch⟩ := hw
  refine ⟨?_, ?_, ?_⟩
  · simpa [upperW] using hne
  · intro c hc
    simp only [upperW, List.mem_map] at hc
    obtain ⟨x, hx, rfl⟩ := hc
    exact isDelimB_toUpperC (hnd x hx)
  · intro la hla
    cases w with
    | nil => trivial
    | cons a t => exact chainSafe_upper t a la hla hch

theorem lowerW_idem (w : List Char) : lowerW (lowerW w) = lowerW w := by
  simp only [lowerW, List.map_map]
  exact List.map_congr_left (fun c _ => toLowerC_idem c)

theorem upperW_idem (w : List Char) : upperW (upperW w) = upperW w := by
  simp only [upperW, List.map_map]
  exact List.map_congr_left (fun c _ => toUpperC_idem c)

end ConvertCase

namespace ConvertCase

theorem lowerW_fix {v : List Char} (h : ∀ c ∈ v, isUpperC c = false) :
    lowerW v = v := by
  induction v with
  | nil => rfl
  | cons a t ih =>
    simp only [lowerW, List.map_cons]
    rw [toLowerC_of_not_upper (h a (by simp))]
    exact congrArg _ (ih (fun c hc => h c (by simp [hc])))

theorem cconv_idem_delim (p : Pattern)
    (hp : p = Pattern.Lowercase ∨ p = Pattern.Uppercase)
    (dc : Char) (hdd : isDelimB defaultBoundaries dc = true)
    (hdl : isLowerC dc = false) (s : List Char) :
    cconv p [dc] (cconv p [dc] s) = cconv p [dc] s := by
  have hsplit := split_words_ok s
  rcases hp with rfl | rfl
  · have hsafe : ∀ v ∈ (split defaultBoundaries s).map lowerW, SafeW v := by
      intro v hv
      obtain ⟨w, hw, rfl⟩ := List.mem_map.mp hv
      exact safeW_lowerW (hsplit w hw)
    show joinW [dc] (mutate Pattern.Lowercase (split defaultBoundaries
      (joinW [dc] ((split defaultBoundaries s).map lowerW)))) = _
    rw [show split defaultBoundaries
        (joinW [dc] ((split defaultBoundaries s).map lowerW)) =
        (split defaultBoundaries s).map lowerW from
      split_join dc hdd hdl _ hsafe]
    show joinW [dc] (((split defaultBoundaries s).map lowerW).map lowerW) =
      joinW [dc] ((split defaultBoundaries s).map lowerW)
    rw [List.map_map]
    exact congrArg _ (List.map_congr_left (fun w _ => lowerW_idem w))
  · have hsafe : ∀ v ∈ (split defaultBoundaries s).map upperW, SafeW v := by
      intro v hv
      obtain ⟨w, hw, rfl⟩ := List.mem_map.mp hv
      exact safeW_upperW (hsplit w hw)
    show joinW [dc] (mutate Pattern.Uppercase (split defaultBoundaries
      (joinW [dc] ((split defaultBoundaries s).map upperW)))) = _
    rw [show split defaultBoundaries
        (joinW [dc] ((split defaultBoundaries s).map upperW)) =
        (split defaultBoundaries s).map upperW from
      split_join dc hdd hdl _ hsafe]
    show joinW [dc] (((split defaultBoundaries s).map upperW).map upperW) =
      joinW [dc] ((split defaultBoundaries s).map upperW)
    rw [List.map_map]
    exact congrArg _ (List.map_congr_left (fun w _ => upperW_idem w))

theorem cconv_idem_flat (s : List Char) :
    cconv Pattern.Lowercase [] (cconv Pattern.Lowercase [] s) =
      cconv Pattern.Lowercase [] s := by
  have hsplit := split_words_ok s
  have hchar : ∀ c ∈ joinW [] ((split defaultBoundaries s).map lowerW),
      isUpperC c = false ∧ isDelimB defaultBoundaries c = false := by
    intro c hc
    obtain ⟨v, hv, hcv⟩ := joinW_mem _ hc
    obtain ⟨w, hw, rfl⟩ := List.mem_map.mp hv
    simp only [lowerW, List.mem_map] at hcv
    obtain ⟨x, hx, rfl⟩ := hcv
    exact ⟨isUpperC_toLowerC x, isDelimB_toLowerC ((hsplit w hw).2.1 x hx)⟩
  show joinW [] (mutate Pattern.Lowercase (split defaultBoundaries
    (joinW [] ((split defaultBoundaries s).map lowerW)))) = _
  have hvs : ∀ v ∈ split defaultBoundaries
      (joinW [] ((split defaultBoundaries s).map lowerW)),
      ∀ c ∈ v, isUpperC c = false :=
    splitAux_chars _ [] defaultBoundaries (by simp) (fun c hc => (hchar c hc).1)
  have hfix : mutate Pattern.Lowercase (split defaultBoundaries
      (joinW [] ((split defaultBoundaries s).map lowerW))) =
      split defaultBoundaries
        (joinW [] ((split defaultBoundaries s).map lowerW)) := by
    show List.map lowerW _ = _
    conv_rhs => rw [← List.map_id (split defaultBoundaries
      (joinW [] ((split defaultBoundaries s).map lowerW)))]
    exact List.map_congr_left (fun v hv => lowerW_fix (hvs v hv))
  rw [hfix]
  have := splitAux_concat (joinW [] ((split defaultBoundaries s).map lowerW)) []
    (fun c hc => (hchar c hc).2)
  simpa using this

/-- Claim C5, counterexample: conversion to a case is not idempotent for every
case.  Toggle and Alternating renderings of "ab" pick up a new
lowercase-to-uppercase boundary, and the delimiterless Camel, Pascal and
UpperCamel renderings can merge or regroup words, so a second conversion
changes the string. -/
theorem to_case_not_idempotent :
    to_case (to_case ['a', 'b'] Case.Toggle) Case.Toggle ≠
        to_case ['a', 'b'] Case.Toggle ∧
      to_case (to_case ['a', 'b'] Case.Alternating) Case.Alternating ≠
        to_case ['a', 'b'] Case.Alternating ∧
      to_case (to_case ['a', 'b', '?', ' ', 'c', 'd'] Case.Camel) Case.Camel ≠
        to_case ['a', 'b', '?', ' ', 'c', 'd'] Case.Camel ∧
      to_case (to_case ['a', ' ', 'c', ' ', 'd', 'e'] Case.Pascal) Case.Pascal ≠
        to_case ['a', ' ', 'c', ' ', 'd', 'e'] Case.Pascal ∧
      to_case (to_case ['a', ' ', 'c', ' ', 'd', 'e'] Case.UpperCamel)
          Case.UpperCamel ≠
        to_case ['a', ' ', 'c', ' ', 'd', 'e'] Case.UpperCamel := by
  decide

/-- Claim C5, amended: conversion to a case is idempotent for every string for
the seven cases whose pattern only lowercases or only uppercases every word —
Lower, Upper, Snake, UpperSnake, Kebab, Cobol and Flat.  Those renderings
contain no character of the opposite letter case, a property of lowercasing
and uppercasing under full case folding as well as under this development's
ASCII alphabet abstraction, so a second split can create no new boundary that
the join does not already realize.  The failing cases are Toggle, Alternating,
Camel, Pascal and UpperCamel (refuted above); Title and Train are not covered
either way, because the Capitalized pattern's idempotence turns on the case
mapping of individual characters: under the spec's full case folding
(section 4.3, not ASCII-only) a sharp s capitalizes to a two-letter uppercase
pair that a second conversion renders differently, a behavior outside the
ASCII alphabet abstraction. -/
theorem to_case_idempotent_nondistorting (s : List Char) (C : Case)
    (hC : C ∈ ([Case.Lower, Case.Upper, Case.Snake, Case.UpperSnake,
      Case.Kebab, Case.Cobol, Case.Flat] : List Case)) :
    to_case (to_case s C) C = to_case s C := by
  simp only [List.mem_cons, List.not_mem_nil, or_false] at hC
  rcases hC with rfl | rfl | rfl | rfl | rfl | rfl | rfl
  · exact cconv_idem_delim Pattern.Lowercase (Or.inl rfl) ' '
      (by decide) (by decide) s
  · exact cconv_idem_delim Pattern.Uppercase (Or.inr rfl) ' '
      (by decide) (by decide) s
  · exact cconv_idem_delim Pattern.Lowercase (Or.inl rfl) '_'
      (by decide) (by decide) s
  · exact cconv_idem_delim Pattern.Uppercase (Or.inr rfl) '_'
      (by decide) (by decide) s
  · exact cconv_idem_delim Pattern.Lowercase (Or.inl rfl) '-'
      (by decide) (by decide) s
  · exact cconv_idem_delim Pattern.Uppercase (Or.inr rfl) '-'
      (by decide) (by decide) s
  · exact cconv_idem_flat s

/-- Witness for the amended claim C5 at a concrete input: Snake is one of the
seven idempotent cases, and a double snake conversion of "a B" equals the
single conversion. -/
theorem to_case_idempotent_witness :
    Case.Snake ∈ ([Case.Lower, Case.Upper, Case.Snake, Case.UpperSnake,
        Case.Kebab, Case.Cobol, Case.Flat] : List Case) ∧
      to_case (to_case ['a', ' ', 'B'] Case.Snake) Case.Snake =
        to_case ['a', ' ', 'B'] Case.Snake :=
  ⟨by decide,
    to_case_idempotent_nondistorting ['a', ' ', 'B'] Case.Snake (by decide)⟩

end ConvertCase
